import Mathlib

/-!
Verification of the console-statement commenting tool
(`remove_console_logs_v2.py`).

A file is modelled as a list of lines, each line a `List Char` as produced
by Python's `readlines` (a line keeps its leading whitespace and its
trailing newline).  Pure Lean functions mirror, statement by statement,
the Python functions `comment_out_console_statements` (the per-file
transformation, here `pass1` built from `passF`) and
`count_active_console_statements` (here `count_active`).
-/

namespace RCL

/-- Python's whitespace set for `str.lstrip` / `str.rstrip`
(space, tab, newline, carriage return, vertical tab, form feed). -/
def pyIsSpace (c : Char) : Bool :=
  c == ' ' || c == '\t' || c == '\n' || c == '\r' || c == '\x0b' || c == '\x0c'

/-- `line.lstrip()`: drop leading whitespace (the trailing newline stays). -/
def lstrip (l : List Char) : List Char := l.dropWhile pyIsSpace

/-- `line[:len(line) - len(stripped)]`: the leading-whitespace prefix of a line. -/
def indentOf (l : List Char) : List Char := l.takeWhile pyIsSpace

/-- `s.rstrip()`: drop trailing whitespace. -/
def rstrip (l : List Char) : List Char := (l.reverse.dropWhile pyIsSpace).reverse

/-- Python's `c in s` membership test for a single character. -/
def hasChar (c : Char) (l : List Char) : Bool := l.any (fun d => d == c)

/-- `s.count(c)` for a single character. -/
def countChar (c : Char) (l : List Char) : Nat := l.count c

/-- `s.endswith(c)` for a single character. -/
def endsWith (c : Char) (l : List Char) : Bool := l.getLast? == some c

/-- The backtick character (U+0060), written via its code point. -/
def tick : Char := Char.ofNat 96

/-- The recognized method names `['log', 'error', 'warn', 'info']`
(line 28 of the source). -/
def consoleMethods : List (List Char) := ["log".data, "error".data, "warn".data, "info".data]

/-- The literal `'console.'` (line 26 of the source). -/
def consoleDot : List Char := "console.".data

/-- The literal `'// console.'` (line 27 of the source). -/
def commentedConsole : List Char := "// console.".data

/-- The literal `'// '` inserted when commenting a line (line 31 of the source). -/
def commentSpace : List Char := "// ".data

/-- The literal `'//'` (the comment marker). -/
def slashSlash : List Char := "//".data

/-- The match test of lines 26-28 of the source:
`stripped.startswith('console.') and not stripped.startswith('// console.')
and any(stripped.startswith('console.' + m) for m in [...])`. -/
def matchesConsole (l : List Char) : Bool :=
  consoleDot.isPrefixOf (lstrip l) &&
  !(commentedConsole.isPrefixOf (lstrip l)) &&
  consoleMethods.any (fun m => (consoleDot ++ m).isPrefixOf (lstrip l))

/-- Line 31 of the source: `lines[i] = indent + '// ' + stripped`. -/
def commentLine (l : List Char) : List Char := indentOf l ++ commentSpace ++ lstrip l

/-- `count('(') - count(')')` on a line, as a signed integer
(lines 47 and 52 of the source). -/
def deltaParen (l : List Char) : Int :=
  (countChar '(' l : Int) - (countChar ')' l : Int)

/-- Number of lines the backtick branch (lines 38-44 of the source) consumes
after the start line: the inner loop advances until a line containing a
backtick is found (that closing line is consumed too) or end-of-file. -/
def tickSkip : List (List Char) → Nat
  | [] => 0
  | l :: rest => if hasChar tick l then 1 else 1 + tickSkip rest

/-- The index (within the following lines) of the first line containing a
backtick, if any.  Used only to state theorems about `tickSkip`. -/
def tickIdx : List (List Char) → Option Nat
  | [] => none
  | l :: rest => if hasChar tick l then some 0 else (tickIdx rest).map (· + 1)

/-- Number of lines the parenthesis branch (lines 50-54 of the source)
consumes after the start line, given the running open-parenthesis count `o`:
the inner loop adds each line's `count('(') - count(')')` and stops once the
total is `≤ 0` (the `i -= 1` on line 54 leaves the scan on that closing
line, which the trailing `i += 1` then steps past) or at end-of-file. -/
def parenSkip (o : Int) : List (List Char) → Nat
  | [] => 0
  | l :: rest =>
    if o + deltaParen l ≤ 0 then 1 else 1 + parenSkip (o + deltaParen l) rest

/-- The index (within the following lines) of the first line at which the
cumulative signed parenthesis count reaches `≤ 0`, if any.
Used only to state theorems about `parenSkip`. -/
def parenIdx (o : Int) : List (List Char) → Option Nat
  | [] => none
  | l :: rest =>
    if o + deltaParen l ≤ 0 then some 0 else (parenIdx (o + deltaParen l) rest).map (· + 1)

/-- Lines 36-54 of the source: how many lines after a matched start line the
scan skips.  `s` is the stripped start line, `rest` the following lines.
Branch 1 (line 36): unterminated template literal; branch 2 (lines 45-54):
no `;`/`)` terminator and positive open-parenthesis count; otherwise the
statement is single-line and nothing is skipped. -/
def spanSkip (s : List Char) (rest : List (List Char)) : Nat :=
  if hasChar tick s && (countChar tick s % 2 == 1) then tickSkip rest
  else if !(endsWith ';' (rstrip s)) && !(endsWith ')' (rstrip s)) then
    if 0 < deltaParen s then parenSkip (deltaParen s) rest else 0
  else 0

/-- The main loop of `comment_out_console_statements` (lines 20-56 of the
source), with an explicit bound `fuel` on the number of outer-loop
iterations.  Each iteration consumes the current line and, on a match, the
`spanSkip` following lines (left untouched, as the source skips them);
with `fuel = ` number of lines the bound is never hit (see the termination
theorem), so the unprocessed-remainder case of `passF 0` is unreachable
from `pass1`. -/
def passF : Nat → List (List Char) → List (List Char)
  | 0, L => L
  | _ + 1, [] => []
  | fuel + 1, l :: rest =>
    if matchesConsole l then
      commentLine l ::
        (rest.take (spanSkip (lstrip l) rest) ++
          passF fuel (rest.drop (spanSkip (lstrip l) rest)))
    else l :: passF fuel rest

/-- One run of `comment_out_console_statements` over the lines of a file
(the in-place line mutations of the source, expressed functionally; the
loop needs at most one iteration per line). -/
def pass1 (L : List (List Char)) : List (List Char) := passF L.length L

/-- Whether a matched line resolves to a single-line span whatever follows
it: even backtick count, and a `;`/`)` terminator or a non-positive
open-parenthesis balance.  (Such a line makes `spanSkip` zero.) -/
def isSingleLine (l : List Char) : Bool :=
  (countChar tick (lstrip l) % 2 == 0) &&
  (endsWith ';' (rstrip (lstrip l)) || endsWith ')' (rstrip (lstrip l)) ||
    decide (deltaParen (lstrip l) ≤ 0))

/-- The match rule the code actually implements: the stripped line starts
with one of `console.log`, `console.error`, `console.warn`, `console.info`. -/
def startsConsoleMethod (l : List Char) : Bool :=
  consoleMethods.any (fun m => (consoleDot ++ m).isPrefixOf (lstrip l))

/-- `p` occurs as a contiguous subsequence of `l`. -/
def hasSub : List Char → List Char → Bool
  | p, [] => p.isEmpty
  | p, c :: rest => p.isPrefixOf (c :: rest) || hasSub p rest

/-- The regex fragment `console\.(?:log|error|warn|info)` matches somewhere
in the line (line 70 of the source). -/
def consoleOcc (l : List Char) : Bool :=
  consoleMethods.any (fun m => hasSub (consoleDot ++ m) l)

/-- The regex lookahead body `.*//.*console\.(?:log|error|warn|info)`
(line 70 of the source): some occurrence of `//` is followed, later in the
same line, by a recognized console call. -/
def slashThenConsole : List Char → Bool
  | [] => false
  | c :: rest =>
    (slashSlash.isPrefixOf (c :: rest) && consoleOcc (rest.drop 1)) ||
      slashThenConsole rest

/-- A line counted by the regex of line 70 of the source: it contains a
recognized console call and the negative lookahead does not veto it. -/
def activeLine (l : List Char) : Bool := consoleOcc l && !slashThenConsole l

/-- Splitting file content at newlines, as `re.MULTILINE` anchoring does. -/
def splitNl : List Char → List (List Char)
  | [] => [[]]
  | c :: rest =>
    if c == '\n' then [] :: splitNl rest
    else
      match splitNl rest with
      | [] => [[c]]
      | h :: t => (c :: h) :: t

/-- `count_active_console_statements` (lines 64-72 of the source): the
number of lines of the file content matched by the multiline regex
`^(?!.*//.*console\.(?:log|error|warn|info)).*console\.(?:log|error|warn|info)`. -/
def count_active (content : List Char) : Nat :=
  List.countP activeLine (splitNl content)

/-- Modelled from the spec's wording (section 4.1), for comparison with the
code's `matchesConsole`: after stripping leading whitespace the line begins
with `console.` followed immediately by one of the four method names,
followed by optional whitespace and then an opening parenthesis, and the
trimmed content does not begin with the comment marker. -/
def specMatches (l : List Char) : Bool :=
  !(slashSlash.isPrefixOf (lstrip l)) &&
  consoleMethods.any (fun m =>
    (consoleDot ++ m).isPrefixOf (lstrip l) &&
    decide ((((lstrip l).drop (consoleDot ++ m).length).dropWhile pyIsSpace).head?
      = some '('))

/-! ## Helper lemmas -/

theorem isPrefixOf_iff_append (p l : List Char) :
    p.isPrefixOf l = true ↔ ∃ t, l = p ++ t := by
  rw [List.isPrefixOf_iff_prefix]
  constructor
  · rintro ⟨t, rfl⟩; exact ⟨t, rfl⟩
  · rintro ⟨t, rfl⟩; exact ⟨t, rfl⟩

theorem dropWhile_takeWhile_append (p : Char → Bool) (l x : List Char) :
    List.dropWhile p (l.takeWhile p ++ x) = List.dropWhile p x := by
  induction l with
  | nil => rfl
  | cons c rest ih =>
    by_cases h : p c = true
    · rw [List.takeWhile_cons, if_pos h, List.cons_append,
        List.dropWhile_cons_of_pos h, ih]
    · rw [List.takeWhile_cons, if_neg (by simp [h]), List.nil_append]

theorem lstrip_commentLine (l : List Char) :
    lstrip (commentLine l) = '/' :: '/' :: ' ' :: lstrip l := by
  show List.dropWhile pyIsSpace
      (List.takeWhile pyIsSpace l ++ commentSpace ++ List.dropWhile pyIsSpace l) = _
  rw [List.append_assoc, dropWhile_takeWhile_append]
  rfl

theorem matchesConsole_commentLine (l : List Char) :
    matchesConsole (commentLine l) = false := by
  unfold matchesConsole
  rw [lstrip_commentLine]
  rfl

theorem matchesConsole_not_slash (l : List Char) (h : matchesConsole l = true) :
    slashSlash.isPrefixOf (lstrip l) = false := by
  have h1 : consoleDot.isPrefixOf (lstrip l) = true := by
    simp only [matchesConsole, Bool.and_eq_true] at h
    exact h.1.1
  obtain ⟨t, ht⟩ := (isPrefixOf_iff_append _ _).mp h1
  rw [ht]
  rfl

theorem hasChar_iff (c : Char) (l : List Char) : hasChar c l = true ↔ c ∈ l := by
  simp [hasChar]

theorem hasChar_of_count_odd (c : Char) (l : List Char)
    (h : countChar c l % 2 = 1) : hasChar c l = true := by
  rw [hasChar_iff]
  by_contra hc
  have h0 : countChar c l = 0 := List.count_eq_zero.mpr hc
  omega

theorem tickSkip_of_idx (rest : List (List Char)) (j : Nat)
    (h : tickIdx rest = some j) : tickSkip rest = j + 1 ∧ j < rest.length := by
  induction rest generalizing j with
  | nil => simp [tickIdx] at h
  | cons r rs ih =>
    by_cases hb : hasChar tick r = true
    · rw [tickIdx, if_pos hb] at h
      injection h with h
      subst h
      rw [tickSkip, if_pos hb]
      simp
    · rw [tickIdx, if_neg (by simp [hb])] at h
      rw [Option.map_eq_some'] at h
      obtain ⟨j', hj', rfl⟩ := h
      obtain ⟨h1, h2⟩ := ih j' hj'
      rw [tickSkip, if_neg (by simp [hb]), h1]
      simp
      omega

theorem tickSkip_of_none (rest : List (List Char)) (h : tickIdx rest = none) :
    tickSkip rest = rest.length := by
  induction rest with
  | nil => rfl
  | cons r rs ih =>
    by_cases hb : hasChar tick r = true
    · rw [tickIdx, if_pos hb] at h; exact absurd h (by simp)
    · rw [tickIdx, if_neg (by simp [hb])] at h
      rw [Option.map_eq_none'] at h
      rw [tickSkip, if_neg (by simp [hb]), ih h]
      simp
      omega

theorem tickSkip_le (rest : List (List Char)) : tickSkip rest ≤ rest.length := by
  induction rest with
  | nil => simp [tickSkip]
  | cons r rs ih =>
    rw [tickSkip]
    by_cases hb : hasChar tick r = true
    · rw [if_pos hb]; simp
    · rw [if_neg (by simp [hb])]; simp; omega

theorem parenSkip_of_idx (rest : List (List Char)) (o : Int) (j : Nat)
    (h : parenIdx o rest = some j) : parenSkip o rest = j + 1 ∧ j < rest.length := by
  induction rest generalizing o j with
  | nil => simp [parenIdx] at h
  | cons r rs ih =>
    by_cases hz : o + deltaParen r ≤ 0
    · rw [parenIdx, if_pos hz] at h
      injection h with h
      subst h
      rw [parenSkip, if_pos hz]
      simp
    · rw [parenIdx, if_neg hz] at h
      rw [Option.map_eq_some'] at h
      obtain ⟨j', hj', rfl⟩ := h
      obtain ⟨h1, h2⟩ := ih (o + deltaParen r) j' hj'
      rw [parenSkip, if_neg hz, h1]
      simp
      omega

theorem parenSkip_of_none (rest : List (List Char)) (o : Int)
    (h : parenIdx o rest = none) : parenSkip o rest = rest.length := by
  induction rest generalizing o with
  | nil => rfl
  | cons r rs ih =>
    by_cases hz : o + deltaParen r ≤ 0
    · rw [parenIdx, if_pos hz] at h; exact absurd h (by simp)
    · rw [parenIdx, if_neg hz] at h
      rw [Option.map_eq_none'] at h
      rw [parenSkip, if_neg hz, ih (o + deltaParen r) h]
      simp
      omega

theorem parenSkip_le (rest : List (List Char)) (o : Int) :
    parenSkip o rest ≤ rest.length := by
  induction rest generalizing o with
  | nil => simp [parenSkip]
  | cons r rs ih =>
    rw [parenSkip]
    by_cases hz : o + deltaParen r ≤ 0
    · rw [if_pos hz]; simp
    · rw [if_neg hz]
      have := ih (o + deltaParen r)
      simp
      omega

theorem spanSkip_le (s : List Char) (rest : List (List Char)) :
    spanSkip s rest ≤ rest.length := by
  unfold spanSkip
  split
  · exact tickSkip_le rest
  · split
    · split
      · exact parenSkip_le rest _
      · omega
    · omega

theorem spanSkip_zero_of_single (l : List Char) (h : isSingleLine l = true)
    (rest : List (List Char)) : spanSkip (lstrip l) rest = 0 := by
  unfold isSingleLine at h
  rw [Bool.and_eq_true] at h
  obtain ⟨h1, h2⟩ := h
  unfold spanSkip
  rw [if_neg (by simp at h1 ⊢; omega)]
  rw [Bool.or_eq_true, Bool.or_eq_true] at h2
  rcases h2 with (h2 | h2) | h2
  · rw [if_neg (by simp [h2])]
  · rw [if_neg (by simp [h2])]
  · rw [decide_eq_true_iff] at h2
    by_cases hcond :
        (!(endsWith ';' (rstrip (lstrip l))) && !(endsWith ')' (rstrip (lstrip l)))) = true
    · rw [if_pos hcond, if_neg (by omega)]
    · rw [if_neg hcond]

theorem passF_zero (L : List (List Char)) : passF 0 L = L := rfl

theorem passF_succ_nil (f : Nat) : passF (f + 1) [] = [] := rfl

theorem passF_succ_cons (f : Nat) (l : List Char) (rest : List (List Char)) :
    passF (f + 1) (l :: rest) =
      if matchesConsole l then
        commentLine l ::
          (rest.take (spanSkip (lstrip l) rest) ++
            passF f (rest.drop (spanSkip (lstrip l) rest)))
      else l :: passF f rest := rfl

theorem passF_congr (f : Nat) : ∀ (g : Nat) (L : List (List Char)),
    L.length ≤ f → L.length ≤ g → passF f L = passF g L := by
  induction f with
  | zero =>
    intro g L hf _
    have hL : L = [] := List.length_eq_zero.mp (Nat.le_zero.mp hf)
    subst hL
    cases g <;> rfl
  | succ f ih =>
    intro g L hf hg
    cases L with
    | nil => cases g <;> rfl
    | cons l rest =>
      cases g with
      | zero => simp at hg
      | succ g =>
        rw [passF_succ_cons, passF_succ_cons]
        simp only [List.length_cons] at hf hg
        by_cases hm : matchesConsole l = true
        · rw [if_pos hm, if_pos hm]
          have hd : (rest.drop (spanSkip (lstrip l) rest)).length ≤ rest.length := by
            rw [List.length_drop]; omega
          rw [ih g (rest.drop (spanSkip (lstrip l) rest)) (by omega) (by omega)]
        · rw [if_neg (by simp [hm]), if_neg (by simp [hm])]
          rw [ih g rest (by omega) (by omega)]

theorem pass1_nil : pass1 [] = [] := rfl

theorem pass1_cons (l : List Char) (rest : List (List Char)) :
    pass1 (l :: rest) =
      if matchesConsole l then
        commentLine l ::
          (rest.take (spanSkip (lstrip l) rest) ++
            pass1 (rest.drop (spanSkip (lstrip l) rest)))
      else l :: pass1 rest := by
  show passF (rest.length + 1) (l :: rest) = _
  rw [passF_succ_cons]
  by_cases hm : matchesConsole l = true
  · rw [if_pos hm, if_pos hm]
    have hd : (rest.drop (spanSkip (lstrip l) rest)).length ≤ rest.length := by
      rw [List.length_drop]; omega
    rw [passF_congr rest.length (rest.drop (spanSkip (lstrip l) rest)).length
      (rest.drop (spanSkip (lstrip l) rest)) hd (le_refl _)]
    rfl
  · rw [if_neg (by simp [hm]), if_neg (by simp [hm])]
    rfl

theorem pass1_length (L : List (List Char)) : (pass1 L).length = L.length := by
  suffices key : ∀ (n : Nat) (M : List (List Char)), M.length ≤ n →
      (pass1 M).length = M.length from key L.length L (le_refl _)
  intro n
  induction n with
  | zero =>
    intro M hM
    have hL : M = [] := List.length_eq_zero.mp (Nat.le_zero.mp hM)
    subst hL
    rfl
  | succ n ih =>
    intro M hM
    cases M with
    | nil => rfl
    | cons l rest =>
      simp only [List.length_cons] at hM
      rw [pass1_cons]
      by_cases hm : matchesConsole l = true
      · rw [if_pos hm]
        have hk := spanSkip_le (lstrip l) rest
        have hd : (rest.drop (spanSkip (lstrip l) rest)).length ≤ n := by
          rw [List.length_drop]; omega
        simp only [List.length_cons, List.length_append, List.length_take,
          ih _ hd, List.length_drop]
        omega
      · rw [if_neg (by simp [hm])]
        simp only [List.length_cons, ih rest (by omega)]

theorem pass1_cons_head (l : List Char) (rest : List (List Char))
    (hm : matchesConsole l = true) :
    (pass1 (l :: rest))[0]? = some (commentLine l) := by
  rw [pass1_cons, if_pos hm, List.getElem?_cons_zero]

theorem pass1_cons_skip (l : List Char) (rest : List (List Char))
    (hm : matchesConsole l = true) (p : Nat)
    (hp : p < spanSkip (lstrip l) rest) :
    (pass1 (l :: rest))[p + 1]? = rest[p]? := by
  have hk := spanSkip_le (lstrip l) rest
  rw [pass1_cons, if_pos hm, List.getElem?_cons_succ, List.getElem?_append,
    List.length_take]
  rw [if_pos (by omega)]
  rw [List.getElem?_take, if_pos hp]

theorem hasSub_iff (p l : List Char) :
    hasSub p l = true ↔ ∃ a b, l = a ++ p ++ b := by
  induction l with
  | nil =>
    rw [hasSub]
    constructor
    · intro h
      exact ⟨[], [], by simp [List.isEmpty_iff.mp h]⟩
    · rintro ⟨a, b, h⟩
      rw [List.isEmpty_iff]
      have := h.symm
      simp only [List.append_eq_nil] at this
      exact this.1.2
  | cons c rest ih =>
    rw [hasSub, Bool.or_eq_true, ih, isPrefixOf_iff_append]
    constructor
    · rintro (⟨t, ht⟩ | ⟨a, b, rfl⟩)
      · exact ⟨[], t, by simpa using ht⟩
      · exact ⟨c :: a, b, rfl⟩
    · rintro ⟨a, b, h⟩
      cases a with
      | nil => exact Or.inl ⟨b, by simpa using h⟩
      | cons a0 a2 =>
        right
        rw [List.cons_append, List.cons_append] at h
        injection h with h1 h2
        exact ⟨a2, b, h2⟩

theorem slashThenConsole_iff (l : List Char) :
    slashThenConsole l = true ↔
      ∃ a b, l = a ++ slashSlash ++ b ∧ consoleOcc b = true := by
  induction l with
  | nil =>
    rw [slashThenConsole]
    constructor
    · intro h; exact absurd h (by simp)
    · rintro ⟨a, b, h, _⟩
      have := h.symm
      simp only [List.append_eq_nil] at this
      exact absurd this.1.2 (by simp [slashSlash])
  | cons c rest ih =>
    rw [slashThenConsole, Bool.or_eq_true, Bool.and_eq_true, ih,
      isPrefixOf_iff_append]
    constructor
    · rintro (⟨⟨t, ht⟩, hc⟩ | ⟨a, b, rfl, hc⟩)
      · have hr : rest = '/' :: t := by
          have ht2 : c :: rest = '/' :: '/' :: t := ht
          injection ht2 with _ h2
        refine ⟨[], t, by simpa using ht, ?_⟩
        rw [hr] at hc
        simpa using hc
      · exact ⟨c :: a, b, rfl, hc⟩
    · rintro ⟨a, b, h, hc⟩
      cases a with
      | nil =>
        left
        have hb : c :: rest = '/' :: '/' :: b := by
          have h2 := h
          rw [List.nil_append] at h2
          exact h2
        refine ⟨⟨b, hb⟩, ?_⟩
        injection hb with h1 h2
        rw [h2]
        simpa using hc
      | cons a0 a2 =>
        right
        rw [List.cons_append, List.cons_append] at h
        injection h with h1 h2
        exact ⟨a2, b, h2, hc⟩

/-! ## Claims -/

/-- C2 (counterexample): the claim says a line matches only when the method
name is followed by optional whitespace and an opening parenthesis.  The code
merely tests string prefixes, so `console.logging(5);` is treated as a match
(via the `console.log` prefix) and gets commented, although the spec's rule
rejects it. -/
theorem claim2_counterexample :
    matchesConsole ("console.logging(5);\n".data) = true ∧
    specMatches ("console.logging(5);\n".data) = false ∧
    pass1 ["console.logging(5);\n".data] = ["// console.logging(5);\n".data] := by
  decide

/-- C2 (amended): a line is treated as a match if and only if its content
after stripping leading whitespace begins with one of the four strings
`console.log`, `console.error`, `console.warn`, `console.info` (no following
parenthesis is required; the explicit not-already-commented guard is
subsumed, since a line starting with `console.` cannot start with
`// console.`). -/
theorem claim2_ok (l : List Char) :
    matchesConsole l = startsConsoleMethod l := by
  unfold matchesConsole startsConsoleMethod
  by_cases hc :
      (consoleMethods.any fun m => (consoleDot ++ m).isPrefixOf (lstrip l)) = true
  · rw [hc]
    rw [List.any_eq_true] at hc
    obtain ⟨m, hmem, hpre⟩ := hc
    obtain ⟨t, ht⟩ := (isPrefixOf_iff_append _ _).mp hpre
    have hA : consoleDot.isPrefixOf (lstrip l) = true := by
      rw [isPrefixOf_iff_append]
      exact ⟨m ++ t, by rw [ht, List.append_assoc]⟩
    have hB : commentedConsole.isPrefixOf (lstrip l) = false := by
      rw [ht]
      rfl
    rw [hA, hB]
    rfl
  · have hc2 :
        (consoleMethods.any fun m => (consoleDot ++ m).isPrefixOf (lstrip l)) = false := by
      simpa using hc
    rw [hc2]
    simp

/-- C3: for a matched start line whose stripped content has an odd number of
backticks, the span ends at the first subsequent line containing a backtick
(at offset `j` after the start line, so the span covers `j + 1` following
lines); the start line is rewritten to its commented form and every line of
the span after the start line — in particular every line strictly between
the start and the closing line — is left unmodified. -/
theorem claim3_ok (l : List Char) (rest : List (List Char)) (j : Nat)
    (hm : matchesConsole l = true)
    (hodd : countChar tick (lstrip l) % 2 = 1)
    (hidx : tickIdx rest = some j) :
    spanSkip (lstrip l) rest = j + 1 ∧
    (pass1 (l :: rest))[0]? = some (commentLine l) ∧
    ∀ p, p ≤ j → (pass1 (l :: rest))[p + 1]? = rest[p]? := by
  have hhc : hasChar tick (lstrip l) = true := hasChar_of_count_odd _ _ hodd
  obtain ⟨hts, hlt⟩ := tickSkip_of_idx rest j hidx
  have hskip : spanSkip (lstrip l) rest = j + 1 := by
    unfold spanSkip
    rw [if_pos (by rw [hhc, hodd]; rfl), hts]
  exact ⟨hskip, pass1_cons_head l rest hm,
    fun p hp => pass1_cons_skip l rest hm p (by omega)⟩

/-- C3 witness: Scenario C — a two-line template literal; the span is the
two lines and the second line (containing the closing backtick) is verbatim. -/
theorem claim3_witness :
    spanSkip (lstrip ("console.log(`v\n".data)) ["t`);\n".data] = 1 ∧
    (pass1 ["console.log(`v\n".data, "t`);\n".data])[1]? = some ("t`);\n".data) := by
  have h := claim3_ok ("console.log(`v\n".data) ["t`);\n".data] 0
    (by decide) (by decide) (by decide)
  refine ⟨h.1, ?_⟩
  have h2 := h.2.2 0 (Nat.le_refl 0)
  simp at h2
  exact h2

/-- C4: for a matched start line with an even backtick count, no `;`/`)`
terminator and a positive open-parenthesis count, the span ends at the first
subsequent line at which the cumulative signed parenthesis count reaches
zero or below (offset `j`, so `j + 1` following lines are covered); only the
start line is rewritten and the lines of the span after it are unmodified. -/
theorem claim4_ok (l : List Char) (rest : List (List Char)) (j : Nat)
    (hm : matchesConsole l = true)
    (heven : countChar tick (lstrip l) % 2 = 0)
    (hsemi : endsWith ';' (rstrip (lstrip l)) = false)
    (hparen : endsWith ')' (rstrip (lstrip l)) = false)
    (hopen : 0 < deltaParen (lstrip l))
    (hidx : parenIdx (deltaParen (lstrip l)) rest = some j) :
    spanSkip (lstrip l) rest = j + 1 ∧
    (pass1 (l :: rest))[0]? = some (commentLine l) ∧
    ∀ p, p ≤ j → (pass1 (l :: rest))[p + 1]? = rest[p]? := by
  obtain ⟨hps, hlt⟩ := parenSkip_of_idx rest (deltaParen (lstrip l)) j hidx
  have hskip : spanSkip (lstrip l) rest = j + 1 := by
    unfold spanSkip
    rw [if_neg (by simp [heven])]
    rw [if_pos (by rw [hsemi, hparen]; rfl), if_pos hopen, hps]
  exact ⟨hskip, pass1_cons_head l rest hm,
    fun p hp => pass1_cons_skip l rest hm p (by omega)⟩

/-- C4 witness: Scenario B — `console.error(` over two lines resolves to a
two-line span (open count 1 returns to 0 on line 2); only line 1 is
commented and line 2 is unchanged. -/
theorem claim4_witness :
    spanSkip (lstrip ("console.error(\n".data)) ["  \"failure\", err);\n".data] = 1 ∧
    (pass1 ["console.error(\n".data, "  \"failure\", err);\n".data])[0]?
      = some ("// console.error(\n".data) ∧
    (pass1 ["console.error(\n".data, "  \"failure\", err);\n".data])[1]?
      = some ("  \"failure\", err);\n".data) := by
  have h := claim4_ok ("console.error(\n".data) ["  \"failure\", err);\n".data] 0
    (by decide) (by decide) (by decide) (by decide) (by decide) (by decide)
  refine ⟨h.1, ?_, ?_⟩
  · rw [h.2.1]
    decide
  · have h2 := h.2.2 0 (Nat.le_refl 0)
    simp at h2
    exact h2

/-- C5: on a matched start line, the output's start line is exactly the
original leading-whitespace prefix, then `//` and a single space, then the
original trimmed content (which still carries the original line terminator,
since only leading whitespace was stripped); all continuation lines of the
resolved span are unaltered. -/
theorem claim5_ok (l : List Char) (rest : List (List Char))
    (hm : matchesConsole l = true) :
    (pass1 (l :: rest))[0]? = some (indentOf l ++ commentSpace ++ lstrip l) ∧
    ∀ p, p < spanSkip (lstrip l) rest → (pass1 (l :: rest))[p + 1]? = rest[p]? :=
  ⟨pass1_cons_head l rest hm, fun p hp => pass1_cons_skip l rest hm p hp⟩

/-- C5 witness: Scenario A — `console.log("hello");` becomes
`// console.log("hello");`. -/
theorem claim5_witness :
    (pass1 ["console.log(\"hello\");\n".data])[0]?
      = some ("// console.log(\"hello\");\n".data) := by
  have h := (claim5_ok ("console.log(\"hello\");\n".data) [] (by decide)).1
  rw [h]
  decide

/-- C8: the scanner raises no error when a span never closes.  If the
backtick rule finds no closing backtick (`tickIdx rest = none`), or the
parenthesis rule never returns the cumulative count to zero or below
(`parenIdx ... = none`), the forward scan silently stops at end-of-file:
the span covers every remaining line and the pass returns normally with
just the start line commented. -/
theorem claim8_ok (l : List Char) (rest : List (List Char))
    (hm : matchesConsole l = true) :
    (countChar tick (lstrip l) % 2 = 1 → tickIdx rest = none →
      spanSkip (lstrip l) rest = rest.length ∧
      pass1 (l :: rest) = commentLine l :: rest) ∧
    (countChar tick (lstrip l) % 2 = 0 →
      endsWith ';' (rstrip (lstrip l)) = false →
      endsWith ')' (rstrip (lstrip l)) = false →
      0 < deltaParen (lstrip l) →
      parenIdx (deltaParen (lstrip l)) rest = none →
      spanSkip (lstrip l) rest = rest.length ∧
      pass1 (l :: rest) = commentLine l :: rest) := by
  constructor
  · intro hodd hnone
    have hhc : hasChar tick (lstrip l) = true := hasChar_of_count_odd _ _ hodd
    have hskip : spanSkip (lstrip l) rest = rest.length := by
      unfold spanSkip
      rw [if_pos (by rw [hhc, hodd]; rfl)]
      exact tickSkip_of_none rest hnone
    refine ⟨hskip, ?_⟩
    rw [pass1_cons, if_pos hm, hskip, List.take_length, List.drop_length,
      pass1_nil, List.append_nil]
  · intro heven hsemi hparen hopen hnone
    have hskip : spanSkip (lstrip l) rest = rest.length := by
      unfold spanSkip
      rw [if_neg (by simp [heven])]
      rw [if_pos (by rw [hsemi, hparen]; rfl), if_pos hopen]
      exact parenSkip_of_none rest _ hnone
    refine ⟨hskip, ?_⟩
    rw [pass1_cons, if_pos hm, hskip, List.take_length, List.drop_length,
      pass1_nil, List.append_nil]

/-- C8 witness: an unterminated template literal with no closing backtick
before end-of-file; the scan consumes the whole remainder and returns. -/
theorem claim8_witness :
    spanSkip (lstrip ("console.log(`oops\n".data)) ["no close\n".data] = 1 ∧
    pass1 ["console.log(`oops\n".data, "no close\n".data]
      = commentLine ("console.log(`oops\n".data) :: ["no close\n".data] := by
  have h := (claim8_ok ("console.log(`oops\n".data) ["no close\n".data]
    (by decide)).1 (by decide) (by decide)
  exact ⟨h.1.trans (by decide), h.2⟩

/-- C9: for a matched start line, the resolved span never extends beyond the
last line of the file: the number of skipped following lines is at most the
number of following lines (and since the end index is the start index plus
this skip, a natural number, the end never falls before the start). -/
theorem claim9_ok (l : List Char) (rest : List (List Char))
    (hm : matchesConsole l = true) :
    spanSkip (lstrip l) rest ≤ rest.length :=
  spanSkip_le (lstrip l) rest

/-- C9 witness at a concrete matched line with two following lines. -/
theorem claim9_witness :
    spanSkip (lstrip ("console.warn(\n".data)) ["a\n".data, "b)\n".data] ≤ 2 := by
  have h := claim9_ok ("console.warn(\n".data) ["a\n".data, "b)\n".data]
    (by decide)
  simpa using h

/-- C10: the transformation terminates on every finite line sequence — the
outer scan index strictly increases each iteration (the parenthesis branch's
`i -= 1` never moves it before its value at loop entry), so at most one
outer iteration per line is ever needed: running the loop with any iteration
budget of at least the number of lines produces the same (fully processed)
result. -/
theorem claim10_ok (fuel : Nat) (L : List (List Char))
    (h : L.length ≤ fuel) : passF fuel L = pass1 L :=
  passF_congr fuel L.length L h (le_refl _)

/-- C10 witness: a surplus iteration budget changes nothing on a concrete
two-line file. -/
theorem claim10_witness :
    passF 7 ["console.log(3);\n".data, "y\n".data]
      = pass1 ["console.log(3);\n".data, "y\n".data] :=
  claim10_ok 7 ["console.log(3);\n".data, "y\n".data] (by decide)

/-- C1 (counterexample): the transformation is not idempotent on all inputs.
A `console.log` line hidden inside the span of an unterminated template
literal is skipped by the first pass and commented by the second, so running
twice differs from running once. -/
theorem claim1_counterexample :
    pass1 (pass1 ["console.log(`a\n".data, "console.log(1);\n".data]) ≠
      pass1 ["console.log(`a\n".data, "console.log(1);\n".data] := by
  decide

/-- C1 (amended): if every line that matches the console test resolves to a
single-line span (even backtick count, and a `;`/`)` terminator or a
non-positive parenthesis balance), then running the transformation twice
yields output identical to running it once, and re-running the scanner on
the output finds zero matching lines.  In general a second pass may comment
lines the first pass skipped inside a multi-line span. -/
theorem claim1_ok (L : List (List Char))
    (h : ∀ l ∈ L, matchesConsole l = true → isSingleLine l = true) :
    pass1 (pass1 L) = pass1 L ∧ List.countP matchesConsole (pass1 L) = 0 := by
  suffices key : ∀ (n : Nat) (M : List (List Char)), M.length ≤ n →
      (∀ l ∈ M, matchesConsole l = true → isSingleLine l = true) →
      pass1 (pass1 M) = pass1 M ∧ List.countP matchesConsole (pass1 M) = 0 from
    key L.length L (le_refl _) h
  intro n
  induction n with
  | zero =>
    intro M hM _
    have hnil : M = [] := List.length_eq_zero.mp (Nat.le_zero.mp hM)
    subst hnil
    exact ⟨rfl, rfl⟩
  | succ n ih =>
    intro M hM hsingle
    cases M with
    | nil => exact ⟨rfl, rfl⟩
    | cons l rest =>
      simp only [List.length_cons] at hM
      have hrest := fun x hx => hsingle x (List.mem_cons_of_mem l hx)
      obtain ⟨ih1, ih2⟩ := ih rest (by omega) hrest
      by_cases hm : matchesConsole l = true
      · have hs := spanSkip_zero_of_single l
          (hsingle l (List.mem_cons_self l rest) hm) rest
        rw [pass1_cons, if_pos hm, hs, List.take_zero, List.drop_zero,
          List.nil_append]
        constructor
        · rw [pass1_cons, if_neg (by simp [matchesConsole_commentLine]), ih1]
        · rw [List.countP_cons_of_neg matchesConsole _
            (by simp [matchesConsole_commentLine]), ih2]
      · rw [pass1_cons, if_neg (by simp [hm])]
        constructor
        · rw [pass1_cons, if_neg (by simp [hm]), ih1]
        · rw [List.countP_cons_of_neg matchesConsole _ (by simp [hm]), ih2]

/-- C1 witness: a file of single-line statements is a fixed point after one
pass and reports zero remaining matches. -/
theorem claim1_witness :
    pass1 (pass1 ["  console.log(1);\n".data, "x\n".data])
        = pass1 ["  console.log(1);\n".data, "x\n".data] ∧
    List.countP matchesConsole
        (pass1 ["  console.log(1);\n".data, "x\n".data]) = 0 :=
  claim1_ok ["  console.log(1);\n".data, "x\n".data] (by decide)

/-- C6 (counterexample): the counter does not count lines whose trimmed
content matches the diagnostic-call prefix — its regex matches `console.`
plus a method name anywhere in the line.  `x; console.log(1)` is counted
although its trimmed content starts with `x`, and a file fully processed by
the transformation can still report one active statement (the `console.log`
line skipped inside a template-literal span). -/
theorem claim6_counterexample :
    count_active ("x; console.log(1)\n".data) = 1 ∧
    (List.filter specMatches (splitNl ("x; console.log(1)\n".data))).length = 0 ∧
    count_active
        (List.flatten (pass1 ["console.log(`a\n".data, "console.log(1);\n".data]))
      = 1 := by
  decide

/-- C6 (amended): `count_active` returns the number of newline-separated
lines that contain `console.` immediately followed by one of the four
method names anywhere in the line, excluding lines in which some occurrence
of `//` is followed later in the line by such a console text; it is not
restricted to trimmed-line starts and need not return 0 on a file processed
by the transformation. -/
theorem claim6_ok (content : List Char) :
    count_active content = (List.filter activeLine (splitNl content)).length ∧
    ∀ l : List Char,
      (consoleOcc l = true ↔
        ∃ m ∈ consoleMethods, ∃ a b, l = a ++ (consoleDot ++ m) ++ b) ∧
      (slashThenConsole l = true ↔
        ∃ a b, l = a ++ slashSlash ++ b ∧ consoleOcc b = true) := by
  refine ⟨List.countP_eq_length_filter _ _, fun l => ⟨?_, slashThenConsole_iff l⟩⟩
  rw [consoleOcc, List.any_eq_true]
  constructor
  · rintro ⟨m, hmem, hsub⟩
    obtain ⟨a, b, rfl⟩ := (hasSub_iff _ _).mp hsub
    exact ⟨m, hmem, a, b, rfl⟩
  · rintro ⟨m, hmem, a, b, rfl⟩
    exact ⟨m, hmem, (hasSub_iff _ _).mpr ⟨a, b, rfl⟩⟩

/-- C7: after one pass, every line of the output either equals the
corresponding input line byte for byte, or is the commented form of an input
line the scanner matched; in particular every already-commented line (whose
trimmed content begins with `//`, hence cannot match) is unchanged. -/
theorem claim7_ok (L : List (List Char)) (i : Nat) :
    ((pass1 L)[i]? ≠ L[i]? →
      ∃ x, L[i]? = some x ∧ matchesConsole x = true ∧
        (pass1 L)[i]? = some (commentLine x)) ∧
    (∀ x, L[i]? = some x → slashSlash.isPrefixOf (lstrip x) = true →
      (pass1 L)[i]? = L[i]?) := by
  suffices key : ∀ (n : Nat) (M : List (List Char)), M.length ≤ n → ∀ (k : Nat),
      ((pass1 M)[k]? ≠ M[k]? →
        ∃ x, M[k]? = some x ∧ matchesConsole x = true ∧
          (pass1 M)[k]? = some (commentLine x)) ∧
      (∀ x, M[k]? = some x → slashSlash.isPrefixOf (lstrip x) = true →
        (pass1 M)[k]? = M[k]?) from key L.length L (le_refl _) i
  intro n
  induction n with
  | zero =>
    intro M hM k
    have hnil : M = [] := List.length_eq_zero.mp (Nat.le_zero.mp hM)
    subst hnil
    constructor
    · intro hne; exact absurd rfl hne
    · intro x hx _; simp at hx
  | succ n ih =>
    intro M hM k
    cases M with
    | nil =>
      constructor
      · intro hne; exact absurd rfl hne
      · intro x hx _; simp at hx
    | cons l rest =>
      simp only [List.length_cons] at hM
      by_cases hm : matchesConsole l = true
      · rw [pass1_cons, if_pos hm]
        have hk := spanSkip_le (lstrip l) rest
        cases k with
        | zero =>
          constructor
          · intro _
            refine ⟨l, ?_, hm, ?_⟩
            · rw [List.getElem?_cons_zero]
            · rw [List.getElem?_cons_zero]
          · intro x hx hsl
            rw [List.getElem?_cons_zero] at hx
            injection hx with hx
            subst hx
            simp [matchesConsole_not_slash l hm] at hsl
        | succ p =>
          rw [List.getElem?_cons_succ, List.getElem?_cons_succ,
            List.getElem?_append, List.length_take]
          by_cases hp : p < min (spanSkip (lstrip l) rest) rest.length
          · rw [if_pos hp, List.getElem?_take, if_pos (by omega)]
            constructor
            · intro hne; exact absurd rfl hne
            · intro x _ _; rfl
          · rw [if_neg hp]
            have hmin : min (spanSkip (lstrip l) rest) rest.length
                = spanSkip (lstrip l) rest := by omega
            rw [hmin]
            have hdl : (rest.drop (spanSkip (lstrip l) rest)).length ≤ n := by
              rw [List.length_drop]; omega
            have ihh := ih (rest.drop (spanSkip (lstrip l) rest)) hdl
              (p - spanSkip (lstrip l) rest)
            rw [List.getElem?_drop] at ihh
            have hpk : spanSkip (lstrip l) rest + (p - spanSkip (lstrip l) rest)
                = p := by omega
            rw [hpk] at ihh
            exact ihh
      · rw [pass1_cons, if_neg (by simp [hm])]
        cases k with
        | zero =>
          constructor
          · intro hne
            rw [List.getElem?_cons_zero, List.getElem?_cons_zero] at hne
            exact absurd rfl hne
          · intro x _ _
            rw [List.getElem?_cons_zero, List.getElem?_cons_zero]
        | succ p =>
          rw [List.getElem?_cons_succ, List.getElem?_cons_succ]
          exact ih rest (by omega) p

/-- C7 witness: a matched line changes into its commented form, and an
already-commented line is byte-identical after the pass. -/
theorem claim7_witness :
    (pass1 ["console.info(9);\n".data])[0]? = some ("// console.info(9);\n".data) ∧
    (pass1 ["// console.warn(\"x\")\n".data])[0]?
      = some ("// console.warn(\"x\")\n".data) := by
  constructor
  · obtain ⟨x, hx, hmx, hres⟩ :=
      (claim7_ok ["console.info(9);\n".data] 0).1 (by decide)
    have hx2 : x = "console.info(9);\n".data := by
      rw [List.getElem?_cons_zero] at hx
      injection hx with hx
      exact hx.symm
    subst hx2
    rw [hres]
    decide
  · have h := (claim7_ok ["// console.warn(\"x\")\n".data] 0).2
      ("// console.warn(\"x\")\n".data) (by decide) (by decide)
    rw [h]
    decide

end RCL
